import Mathlib

/-!
Verification development for the Arches v3→v4 migration tools
(`graph_migrator.py` and `skos_migrator.py`).

The Python source is shallowly embedded below: pure helper functions become
Lean functions; exceptions (`KeyError`, `ValueError`, `TypeError`) become
`Option`-valued results (`none` = the exception propagates); the mutable
per-resource accumulators of `Migrator` become explicit state passing.
-/

namespace ArchesMigration

/-! ## Python string helpers -/

/-- Python `str.split()` whitespace characters (space, tab, LF, VT, FF, CR). -/
def isPySpace (c : Char) : Bool :=
  c = ' ' || c = '\t' || c = '\n' || c = '\x0b' || c = '\x0c' || c = '\r'

/-- Accumulating worker for Python `str.split()` (split on whitespace runs,
dropping empty pieces). -/
def pyWordsAux : List Char → List Char → List (List Char)
  | [], acc => if acc = [] then [] else [acc.reverse]
  | c :: rest, acc =>
    if isPySpace c then
      if acc = [] then pyWordsAux rest []
      else acc.reverse :: pyWordsAux rest []
    else pyWordsAux rest (c :: acc)

/-- Python `str.split()` with no argument: split on whitespace runs. -/
def pySplitWs (s : String) : List String :=
  (pyWordsAux s.data []).map String.mk

/-- Python `str.capitalize()`: upper-case the first character, lower-case the
rest. -/
def pyCapitalize (s : String) : String :=
  match s.data with
  | [] => ""
  | c :: rest => String.mk (c.toUpper :: rest.map Char.toLower)

/-- Python `string.capwords`: split on whitespace, capitalize each word, join
with single spaces. -/
def capwords (s : String) : String :=
  String.intercalate " " ((pySplitWs s).map pyCapitalize)

/-- Python `s.split('.')[0]`: the prefix of `s` before the first dot. -/
def splitDotHead (s : String) : String :=
  (s.splitOn ".").headD s

/-- Python `s.replace('_', ' ')`. -/
def underscoreToSpace (s : String) : String :=
  String.map (fun c => if c = '_' then ' ' else c) s

/-- The query normalisation used by `get_v4_fieldname`'s fuzzy branch and by
`convert_v3_rname`: `capwords(name.split('.')[0].replace('_', ' '))`. -/
def normalizeFieldName (s : String) : String :=
  capwords (underscoreToSpace (splitDotHead s))

/-! ## fuzzywuzzy `process.extractOne`

The fuzzy-matching library itself is external; we model it by an arbitrary
scoring function.  `extractOne` returns the first choice attaining the maximal
score (Python `max` returns the first maximal element), or `none` when the
choice list is empty (the Python call returns `None`, and the `[0]` subscript
in the caller then raises `TypeError`). -/

def extractOne (score : String → String → Nat) (query : String) :
    List String → Option String
  | [] => none
  | c :: cs =>
    match extractOne score query cs with
    | none => some c
    | some b => if score query b > score query c then some b else some c

/-! ## DTFixer datatype fixers

Each fixer is total except `fix_date`, which can raise `ValueError`; to keep a
uniform type every fixer returns `Option String` (`none` = exception). -/

/-- Fixer for the `string`, `geojson-feature-collection`, `concept` and
`domain-value` datatypes: pass the data through unchanged. -/
def fix_passthrough (data : String) : Option String :=
  some data

/-- Fixer for `number`: `str(data).replace(",", "")` strips every comma. -/
def fix_number (data : String) : Option String :=
  some (String.mk (data.data.filter (fun c => c ≠ ',')))

/-- Fixer for `concept-list` and `domain-value-list`: if `data.split()` has
more than one token, wrap the whole value in single quotes. -/
def fix_list (data : String) : Option String :=
  if (pySplitWs data).length > 1 then some ("'" ++ data ++ "'")
  else some data

/-- Fixer for `file-list`: `data.split('/')[-1]`, the final path segment. -/
def fix_filepath (data : String) : Option String :=
  some ((data.splitOn "/").getLastD "")

/-! ### fix_date and its strptime model

`fix_date` returns the input unchanged when it is empty, and otherwise runs
`datetime.strptime(data, "%Y-%m-%dT%H:%M:%S").date().isoformat()`.

CPython's `_strptime` compiles the format to a regex (with `IGNORECASE`, so the
literal `T` also matches `t`) built from
  `%Y ↦ \d\d\d\d`, `%m ↦ 1[0-2]|0[1-9]|[1-9]`, `%d ↦ 3[01]|[12]\d|0[1-9]|[1-9]`,
  `%H ↦ 2[0-3]|[0-1]\d|\d`, `%M, %S ↦ [0-5]\d|\d`,
requires the match to consume the whole string, and then validates the result
through the `datetime` constructor (year within 1..9999, day within the month,
with leap years).  Because every separator is a non-digit, each numeric
component simply consumes the maximal leading digit run, which must have
length 1 or 2 (4 for the year) and an in-range value. -/

/-- Decide whether a character is an ASCII digit (regex `\d` without the
UNICODE flag). -/
def isDigitC (c : Char) : Bool :=
  48 ≤ c.toNat && c.toNat ≤ 57

/-- Numeric value of an ASCII digit character. -/
def digitVal (c : Char) : Nat :=
  c.toNat - 48

/-- Split off the maximal leading run of ASCII digits, as digit values. -/
def takeDigits : List Char → List Nat × List Char
  | [] => ([], [])
  | c :: rest =>
    if isDigitC c then
      let p := takeDigits rest
      (digitVal c :: p.1, p.2)
    else ([], c :: rest)

/-- Value of a big-endian digit list. -/
def digitsVal (ds : List Nat) : Nat :=
  ds.foldl (fun a d => 10 * a + d) 0

/-- Month component: regex `1[0-2]|0[1-9]|[1-9]` — one digit valued 1..9 or two
digits valued 1..12. -/
def monthOk (ds : List Nat) : Bool :=
  (ds.length == 1 && decide (1 ≤ digitsVal ds)) ||
  (ds.length == 2 && decide (1 ≤ digitsVal ds) && decide (digitsVal ds ≤ 12))

/-- Day component: regex `3[01]|[12]\d|0[1-9]|[1-9]` — one digit valued 1..9 or
two digits valued 1..31. -/
def dayOk (ds : List Nat) : Bool :=
  (ds.length == 1 && decide (1 ≤ digitsVal ds)) ||
  (ds.length == 2 && decide (1 ≤ digitsVal ds) && decide (digitsVal ds ≤ 31))

/-- Hour component: regex `2[0-3]|[0-1]\d|\d` — one digit, or two digits valued
at most 23. -/
def hourOk (ds : List Nat) : Bool :=
  (ds.length == 1) || (ds.length == 2 && decide (digitsVal ds ≤ 23))

/-- Minute and second components: regex `[0-5]\d|\d` — one digit, or two digits
valued at most 59. -/
def minSecOk (ds : List Nat) : Bool :=
  (ds.length == 1) || (ds.length == 2 && decide (digitsVal ds ≤ 59))

/-- Parse a character list against `%Y-%m-%dT%H:%M:%S`, returning the
year/month/day components (the time components are validated and discarded).
Returns `none` when the regex fails to match the whole string. -/
def strptime_ymdhms (cs : List Char) : Option (Nat × Nat × Nat) :=
  let py := takeDigits cs
  if py.1.length ≠ 4 then none else
  match py.2 with
  | '-' :: r2 =>
    let pm := takeDigits r2
    if ¬ monthOk pm.1 then none else
    match pm.2 with
    | '-' :: r4 =>
      let pd := takeDigits r4
      if ¬ dayOk pd.1 then none else
      match pd.2 with
      | cT :: r6 =>
        if cT ≠ 'T' ∧ cT ≠ 't' then none else
        let ph := takeDigits r6
        if ¬ hourOk ph.1 then none else
        match ph.2 with
        | ':' :: r8 =>
          let pn := takeDigits r8
          if ¬ minSecOk pn.1 then none else
          match pn.2 with
          | ':' :: r10 =>
            let ps := takeDigits r10
            if ¬ minSecOk ps.1 then none else
            if ps.2 ≠ [] then none else
            some (digitsVal py.1, digitsVal pm.1, digitsVal pd.1)
          | _ => none
        | _ => none
      | _ => none
    | _ => none
  | _ => none

/-- Gregorian leap-year rule, as in Python's `datetime`. -/
def isLeapYear (y : Nat) : Bool :=
  (y % 4 == 0 && y % 100 != 0) || (y % 400 == 0)

/-- Days in a month, as validated by the `datetime` constructor. -/
def daysInMonth (y m : Nat) : Nat :=
  if m = 2 then (if isLeapYear y then 29 else 28)
  else if m = 4 ∨ m = 6 ∨ m = 9 ∨ m = 11 then 30
  else 31

/-- Two-digit zero padding, as in `date.isoformat()` (valid for `n ≤ 99`). -/
def pad2 (n : Nat) : List Char :=
  [Nat.digitChar (n / 10), Nat.digitChar (n % 10)]

/-- Four-digit zero padding, as in `date.isoformat()` (valid for `n ≤ 9999`). -/
def pad4 (n : Nat) : List Char :=
  [Nat.digitChar (n / 1000), Nat.digitChar (n / 100 % 10),
   Nat.digitChar (n / 10 % 10), Nat.digitChar (n % 10)]

/-- The string produced by `date(y, m, d).isoformat()`. -/
def isoDate (y m d : Nat) : String :=
  String.mk (pad4 y ++ '-' :: pad2 m ++ '-' :: pad2 d)

/-- Fixer for `date`: empty input passes through; otherwise
`datetime.strptime(data, "%Y-%m-%dT%H:%M:%S").date().isoformat()`, with `none`
modelling the `ValueError` raised on parse or validation failure. -/
def fix_date (data : String) : Option String :=
  if data = "" then some data else
  match strptime_ymdhms data.data with
  | none => none
  | some (y, m, d) =>
    if 1 ≤ y ∧ y ≤ 9999 ∧ 1 ≤ m ∧ m ≤ 12 ∧ 1 ≤ d ∧ d ≤ daysInMonth y m then
      some (isoDate y m d)
    else none

/-- Spec-side constructor of a strictly conforming ISO-8601 timestamp of the
form `YYYY-MM-DDTHH:MM:SS` (zero-padded, literal `T`), written from the spec's
words for comparison against the source-derived `fix_date`. -/
def mkTimestamp (y m d h mi s : Nat) : String :=
  String.mk (pad4 y ++ '-' :: pad2 m ++ '-' :: pad2 d ++
    'T' :: pad2 h ++ ':' :: pad2 mi ++ ':' :: pad2 s)

/-- Spec-side conformance predicate: the string is an ISO-8601 timestamp of
the form `YYYY-MM-DDTHH:MM:SS` with in-range, calendar-valid components.
Written from the spec's words, for comparison against `fix_date`. -/
def IsoConforming (str : String) : Prop :=
  ∃ y m d h mi s, 1 ≤ y ∧ y ≤ 9999 ∧ 1 ≤ m ∧ m ≤ 12 ∧ 1 ≤ d ∧
    d ≤ daysInMonth y m ∧ h ≤ 23 ∧ mi ≤ 59 ∧ s ≤ 59 ∧
    str = mkTimestamp y m d h mi s

/-- The `DTFixer.fixers` dictionary: datatype name to fixer, `none` modelling
the `KeyError` on an unknown datatype. -/
def fixers (dt : String) : Option (String → Option String) :=
  if dt = "string" then some fix_passthrough
  else if dt = "number" then some fix_number
  else if dt = "date" then some fix_date
  else if dt = "geojson-feature-collection" then some fix_passthrough
  else if dt = "concept" then some fix_passthrough
  else if dt = "concept-list" then some fix_list
  else if dt = "domain-value" then some fix_passthrough
  else if dt = "domain-value-list" then some fix_list
  else if dt = "file-list" then some fix_filepath
  else none

/-! ## DTFixer state and field resolution -/

/-- The read-only configuration a `DTFixer` instance carries after `__init__`:
the fuzzy scorer, and for each resource model name the mapping field names
(`arches_node_name` entries, in declared order), the graph-diff rename table,
and the field-name→datatype table.  Tables are association lists (JSON objects
have unique keys); lookups model Python dict indexing. -/
structure Config where
  score : String → String → Nat
  mappings : String → List String
  graphdiffs : String → List (String × Option String)
  names_n_dts : String → List (String × String)

/-- Embedding of `DTFixer.get_v4_fieldname`.  The outer `Option` models the
`TypeError` raised by `extractOne(...)[0]` when the candidate list is empty;
`some none` is the deliberate `return None` for a field absent from the
graph diff; `some (some f)` is a resolved field name.  Note that an explicit
(non-null) graph-diff target is NOT returned directly: it is used as the query
of a fuzzy match over the mapping field names. -/
def get_v4_fieldname (cfg : Config) (resource_name field_name : String) :
    Option (Option String) :=
  let mapping_fieldnames := cfg.mappings resource_name
  match List.lookup field_name (cfg.graphdiffs resource_name) with
  | none => some none
  | some none =>
    (extractOne cfg.score (normalizeFieldName field_name) mapping_fieldnames).map
      (fun b => some b)
  | some (some tgt) =>
    (extractOne cfg.score tgt mapping_fieldnames).map (fun b => some b)

/-- Embedding of `DTFixer.fix_datatype`: look up the field's datatype, then
apply the corresponding fixer; `none` models a `KeyError` (missing field or
unknown datatype) or a fixer `ValueError`. -/
def fix_datatype (cfg : Config) (resource_name field_name data : String) :
    Option String :=
  match List.lookup field_name (cfg.names_n_dts resource_name) with
  | none => none
  | some dt =>
    match fixers dt with
    | none => none
    | some f => f data

/-! ## Migrator: resource trees and per-resource processing -/

/-- One v3 child entity: `entitytypeid`, `value`, `businesstablename`, and the
nested `child_entities`. -/
inductive Child where
  | mk (entitytypeid value businesstablename : String)
      (child_entities : List Child)

/-- Field accessor for the entity type identifier. -/
def Child.entitytypeid : Child → String
  | .mk e _ _ _ => e

/-- Field accessor for the raw value. -/
def Child.value : Child → String
  | .mk _ v _ _ => v

/-- Field accessor for the business table name. -/
def Child.businesstablename : Child → String
  | .mk _ _ b _ => b

/-- Field accessor for the nested child entities. -/
def Child.child_entities : Child → List Child
  | .mk _ _ _ cs => cs

/-- A row dict accumulated in `v4_data[resource_name][ruuid]`, as an
association list in insertion order. -/
abbrev Row := List (String × String)

/-- The mutable state `process_children` touches while processing one
resource: the row list `v4_data[resource_name][ruuid]` (a missing dict key is
represented by the empty list, since the key is created exactly when the first
row is appended) and the accumulated `resource_fieldnames[resource_name]`. -/
structure MigState where
  rows : List Row
  fieldnames : List String
deriving DecidableEq

/-- The Python dict literal `{'ResourceID': ruuid, v4_field_name: data}` —
a single-entry dict when the field name collides with `'ResourceID'`. -/
def mkRow (ruuid fname data : String) : Row :=
  if fname = "ResourceID" then [("ResourceID", data)]
  else [("ResourceID", ruuid), (fname, data)]

/-- Append one child's row and field name to the state, as done in the
`businesstablename != ""` branch of `process_children`. -/
def appendRow (st : MigState) (ruuid fname data : String) : MigState :=
  { rows := st.rows ++ [mkRow ruuid fname data],
    fieldnames := st.fieldnames ++ [fname] }

/-- Embedding of `Migrator.process_children`.  For each child in order the
code resolves the v4 field name (a `TypeError` there aborts), recurses into
the grandchildren (the shadowed `children` variable), skips dropped fields,
formats the value (a `KeyError`/`ValueError` there aborts — note this happens
BEFORE the structural-node check), and appends the row only when the child has
a non-empty `businesstablename`.  `none` models a propagating exception. -/
def process_children (cfg : Config) (rname ruuid : String) :
    List Child → MigState → Option MigState
  | [], st => some st
  | child :: rest, st =>
    match get_v4_fieldname cfg rname child.entitytypeid with
    | none => none
    | some fOpt =>
      match process_children cfg rname ruuid child.child_entities st with
      | none => none
      | some st1 =>
        match fOpt with
        | none => process_children cfg rname ruuid rest st1
        | some fname =>
          match fix_datatype cfg rname fname child.value with
          | none => none
          | some fixed =>
            process_children cfg rname ruuid rest
              (if child.businesstablename ≠ "" then appendRow st1 ruuid fname fixed
               else st1)
termination_by cs _ => sizeOf cs
decreasing_by
  all_goals cases child
  all_goals simp [Child.child_entities]
  all_goals omega

/-! ## Row condensing (`create_resource_rows`) -/

/-- Inner loop of one condensing pass: fold a row's items into `newrow`,
adding each item whose key is not yet present, and report whether anything was
added (whether the row's index landed in `added`). -/
def addItems (newrow : Row) (items : Row) : Row × Bool :=
  items.foldl
    (fun acc kv =>
      if (List.lookup kv.1 acc.1).isSome then acc
      else (acc.1 ++ [kv], true))
    (newrow, false)

/-- One pass of the `while` loop in `create_resource_rows`: thread `newrow`
through the rows in order; a row from which nothing was added is kept (in
order) for the next pass, matching the index-based filtering of the source. -/
def condensePass : List Row → Row → Row × List Row
  | [], newrow => (newrow, [])
  | r :: rest, newrow =>
    let p := addItems newrow r
    let q := condensePass rest p.1
    if p.2 then (q.1, q.2) else (q.1, r :: q.2)

/-- Fuelled version of the `while len(resource) > 0` loop.  When every row is
a non-empty dict, each pass consumes at least the first remaining row, so fuel
equal to the number of rows suffices; the Python loop diverges on an input
containing an empty dict, which the fuel cuts off (no such input arises from
`process_children`). -/
def condenseLoop : Nat → List Row → List Row
  | _, [] => []
  | 0, _ => []
  | n + 1, rows =>
    let p := condensePass rows []
    p.1 :: condenseLoop n p.2

/-- Embedding of `Migrator.create_resource_rows`. -/
def create_resource_rows (resource : List Row) : List Row :=
  condenseLoop resource.length resource

/-! ## CSV header computation (`migrate_data`) -/

/-- Python `list(set(; ))` over the accumulated field names.  Set iteration
order is unspecified in Python 2; we fix first-occurrence order, and the
theorems below rely only on membership. -/
def pySetList (l : List String) : List String :=
  l.foldl (fun acc x => if x ∈ acc then acc else acc ++ [x]) []

/-- The CSV header computed in `migrate_data`: deduplicate the accumulated
`resource_fieldnames`, `remove("ResourceID")` (first occurrence), then
`insert(0, "ResourceID")`. -/
def make_header (fieldnames : List String) : List String :=
  "ResourceID" :: (pySetList fieldnames).erase "ResourceID"

/-! ## Pair-level reference view of condensing (for the proofs) -/

/-- Split a pair list into the first occurrence of each key not in `seen`
(in order) and the remaining pairs (in order). -/
def firstOcc (seen : List String) :
    List (String × String) → List (String × String) × List (String × String)
  | [] => ([], [])
  | (f, v) :: rest =>
    if f ∈ seen then
      ((firstOcc seen rest).1, (f, v) :: (firstOcc seen rest).2)
    else
      ((f, v) :: (firstOcc (f :: seen) rest).1, (firstOcc (f :: seen) rest).2)

/-- Fuelled reference condensing directly on (field, value) pairs: each round
takes the first occurrence of each field id and recurses on the rest.  Fuel
equal to the list length always suffices, since a round always consumes the
first pair. -/
def condensePairsFuel : Nat → List (String × String) → List (List (String × String))
  | _, [] => []
  | 0, _ => []
  | n + 1, p :: rest =>
    (p :: (firstOcc [p.1] rest).1) :: condensePairsFuel n (firstOcc [p.1] rest).2

/-- Reference condensing on pairs with sufficient fuel. -/
def condensePairs (ps : List (String × String)) : List (List (String × String)) :=
  condensePairsFuel ps.length ps

/-- Number of occurrences of a field id in a pair list. -/
def fieldCount (ps : List (String × String)) (f : String) : Nat :=
  (ps.filter (fun p => p.1 = f)).length

/-- Maximum multiplicity of any field id in a pair list. -/
def maxMult (ps : List (String × String)) : Nat :=
  (ps.map (fun p => fieldCount ps p.1)).foldr max 0

/-! ## Zero-field resources -/

/-- Decide whether every entity in a child tree is dropped by field
resolution, i.e. its `entitytypeid` is absent from the resource model's graph
diff. -/
def allDroppedB (cfg : Config) (rname : String) : Child → Bool
  | .mk e _ _ cs =>
    (List.lookup e (cfg.graphdiffs rname)).isNone &&
    cs.attach.all (fun c => allDroppedB cfg rname c.1)
termination_by c => sizeOf c
decreasing_by
  have h := List.sizeOf_lt_of_mem c.2
  simp only [Child.mk.sizeOf_spec]
  omega

/-! ## SKOS converter (`skos_migrator.py`) -/

/-- A `skos:prefLabel` node's embedded JSON, abstracted to the one key the
converter reads (`json.loads(preflabel.text)['value']`). -/
structure PrefLabel where
  value : String
deriving DecidableEq

/-- Embedding of `new_or_existing_uuid`: return the stored UUID for the
label's `value` if present, else record and return a fresh one (`fresh`
models the `uuid.uuid4()` draw). The store is an association list standing for
the `uuids` dict. -/
def new_or_existing_uuid (fresh : String) (uuids : List (String × String))
    (preflabel : PrefLabel) : String × List (String × String) :=
  match List.lookup preflabel.value uuids with
  | some u => (u, uuids)
  | none => (fresh, uuids ++ [(preflabel.value, fresh)])

/-! ## Helper lemmas about extractOne -/

theorem extractOne_mem (score : String → String → Nat) (q : String) :
    ∀ (l : List String) (x : String), extractOne score q l = some x → x ∈ l := by
  intro l
  induction l with
  | nil => intro x h; simp [extractOne] at h
  | cons c cs ih =>
    intro x h
    simp only [extractOne] at h
    cases hrec : extractOne score q cs with
    | none => rw [hrec] at h; simp at h; simp [h]
    | some b =>
      rw [hrec] at h
      by_cases hgt : score q b > score q c
      · simp [hgt] at h; subst h; exact List.mem_cons_of_mem _ (ih _ hrec)
      · simp [hgt] at h; simp [h]

theorem extractOne_ne_nil (score : String → String → Nat) (q : String)
    (l : List String) (h : l ≠ []) : ∃ x, extractOne score q l = some x := by
  cases l with
  | nil => exact absurd rfl h
  | cons c cs =>
    simp only [extractOne]
    cases extractOne score q cs with
    | none => exact ⟨c, rfl⟩
    | some b =>
      by_cases hgt : score q b > score q c
      · exact ⟨b, by simp [hgt]⟩
      · exact ⟨c, by simp [hgt]⟩

theorem extractOne_maximal (score : String → String → Nat) (q : String) :
    ∀ (l : List String) (x : String), extractOne score q l = some x →
      ∀ y ∈ l, score q y ≤ score q x := by
  intro l
  induction l with
  | nil => intro x h; simp [extractOne] at h
  | cons c cs ih =>
    intro x h y hy
    simp only [extractOne] at h
    cases hrec : extractOne score q cs with
    | none =>
      rw [hrec] at h; simp at h; subst h
      rcases List.mem_cons.mp hy with hyc | hycs
      · simp [hyc]
      · rcases extractOne_ne_nil score q cs (by rintro rfl; simp at hycs) with ⟨b, hb⟩
        rw [hb] at hrec; cases hrec
    | some b =>
      rw [hrec] at h
      by_cases hgt : score q b > score q c
      · simp [hgt] at h; subst h
        rcases List.mem_cons.mp hy with hyc | hycs
        · subst hyc; omega
        · exact ih _ hrec _ hycs
      · simp [hgt] at h; subst h
        rcases List.mem_cons.mp hy with hyc | hycs
        · simp [hyc]
        · exact le_trans (ih _ hrec _ hycs) (by omega)

/-- Any field name resolution that succeeds lands in the model's mapping
field-name list (both graph-diff branches return an `extractOne` result over
`mapping_fieldnames`). -/
theorem get_v4_fieldname_mem (cfg : Config) (r f c : String)
    (h : get_v4_fieldname cfg r f = some (some c)) : c ∈ cfg.mappings r := by
  cases hlk : List.lookup f (cfg.graphdiffs r) with
  | none => simp only [get_v4_fieldname, hlk] at h; simp at h
  | some o =>
    cases o with
    | none =>
      simp only [get_v4_fieldname, hlk] at h
      cases hex : extractOne cfg.score (normalizeFieldName f) (cfg.mappings r) with
      | none => rw [hex] at h; simp at h
      | some b =>
        rw [hex] at h; simp at h; subst h
        exact extractOne_mem _ _ _ _ hex
    | some tgt =>
      simp only [get_v4_fieldname, hlk] at h
      cases hex : extractOne cfg.score tgt (cfg.mappings r) with
      | none => rw [hex] at h; simp at h
      | some b =>
        rw [hex] at h; simp at h; subst h
        exact extractOne_mem _ _ _ _ hex

/-! ## Concrete configurations used by counterexamples and witnesses -/

/-- A configuration whose graph diff maps the old field `old` to the explicit
target `Foo`, while the mapping's candidate field list is just `Bar`. -/
def cfgExplicit : Config :=
  { score := fun _ _ => 0
    mappings := fun _ => ["Bar"]
    graphdiffs := fun _ => [("old", some "Foo")]
    names_n_dts := fun _ => [("Bar", "string")] }

/-- A small configuration with two declared fields `A` (a date) and `B`
(a string), an explicit rename `olda ↦ A`, and a scorer preferring exact
matches. -/
def cfgAB : Config :=
  { score := fun q c => if q = c then 100 else 0
    mappings := fun _ => ["A", "B"]
    graphdiffs := fun _ => [("olda", some "A"), ("nullf", none)]
    names_n_dts := fun _ => [("A", "date"), ("B", "string")] }

/-! ## Claim C1 -/

/-- Claim C1, counterexample: the rename table of `cfgExplicit` maps `old` to
the explicit target `Foo`, yet `get_v4_fieldname` returns `Bar` — the
fuzzy-match best candidate — not the explicit identifier verbatim. -/
theorem c1_counterexample :
    List.lookup "old" (cfgExplicit.graphdiffs "R") = some (some "Foo") ∧
    get_v4_fieldname cfgExplicit "R" "old" = some (some "Bar") ∧
    get_v4_fieldname cfgExplicit "R" "old" ≠ some (some "Foo") := by
  refine ⟨by decide, by decide, by decide⟩

/-- Claim C1 (amended): for an old field id present in the rename table with
an explicit (non-null) target, `get_v4_fieldname` does not return the target
verbatim; it returns the best fuzzy-match candidate for that target from the
model's candidate field list (an element of that list maximising the score
against the explicit target). -/
theorem c1_explicit_target_fuzzy_matched (cfg : Config) (r f tgt : String)
    (h : List.lookup f (cfg.graphdiffs r) = some (some tgt))
    (hne : cfg.mappings r ≠ []) :
    ∃ c, get_v4_fieldname cfg r f = some (some c) ∧ c ∈ cfg.mappings r ∧
      ∀ y ∈ cfg.mappings r, cfg.score tgt y ≤ cfg.score tgt c := by
  rcases extractOne_ne_nil cfg.score tgt (cfg.mappings r) hne with ⟨c, hc⟩
  refine ⟨c, ?_, extractOne_mem _ _ _ _ hc, extractOne_maximal _ _ _ _ hc⟩
  simp only [get_v4_fieldname, h]
  rw [hc]
  rfl

/-- Claim C1 (amended), witness at the concrete configuration `cfgExplicit`. -/
theorem c1_explicit_target_fuzzy_matched_witness :
    ∃ c, get_v4_fieldname cfgExplicit "R" "old" = some (some c) ∧
      c ∈ cfgExplicit.mappings "R" ∧
      ∀ y ∈ cfgExplicit.mappings "R",
        cfgExplicit.score "Foo" y ≤ cfgExplicit.score "Foo" c :=
  c1_explicit_target_fuzzy_matched cfgExplicit "R" "old" "Foo" (by decide)
    (by decide)

/-! ## Claim C8 -/

/-- Claim C8: an old field id absent from the resource model's rename table
resolves to nothing (the deliberate `return None`), and a child entity with
such a field id is dropped silently — processing it leaves the state unchanged
and raises no error. -/
theorem c8_absent_field_dropped (cfg : Config) (r f : String)
    (h : List.lookup f (cfg.graphdiffs r) = none) :
    get_v4_fieldname cfg r f = some none ∧
    ∀ (ruuid v btn : String) (st : MigState),
      process_children cfg r ruuid [Child.mk f v btn []] st = some st := by
  constructor
  · unfold get_v4_fieldname
    rw [h]
  · intro ruuid v btn st
    have hres : get_v4_fieldname cfg r f = some none := by
      unfold get_v4_fieldname; rw [h]
    simp [process_children, Child.entitytypeid, Child.child_entities, hres]

/-- Claim C8, witness: the field id `gone` is absent from `cfgAB`'s rename
table, so it resolves to `none` and its child is skipped without error. -/
theorem c8_absent_field_dropped_witness :
    get_v4_fieldname cfgAB "R" "gone" = some none ∧
    ∀ (ruuid v btn : String) (st : MigState),
      process_children cfgAB "R" ruuid [Child.mk "gone" v btn []] st = some st :=
  c8_absent_field_dropped cfgAB "R" "gone" (by decide)

/-! ## Claim C9 -/

/-- Claim C9: `process_children` formats a resolvable child's value before the
structural-node (`businesstablename == ""`) check, so a value the formatter
rejects aborts processing with an error even for a structural node whose field
would never have been emitted. -/
theorem c9_format_error_aborts_structural_node (cfg : Config)
    (r ruuid ety v fname : String) (st : MigState)
    (hres : get_v4_fieldname cfg r ety = some (some fname))
    (hfix : fix_datatype cfg r fname v = none) :
    process_children cfg r ruuid [Child.mk ety v "" []] st = none := by
  simp [process_children, Child.entitytypeid, Child.child_entities,
    Child.value, hres, hfix]

/-- Claim C9, witness: in `cfgAB` the field `olda` resolves to the date field
`A`, and the malformed date `05-14-2003` makes the formatter raise, so the
structural child (`businesstablename` empty) aborts processing. -/
theorem c9_format_error_aborts_structural_node_witness :
    process_children cfgAB "R" "r1" [Child.mk "olda" "05-14-2003" "" []]
      ⟨[], ["ResourceID"]⟩ = none :=
  c9_format_error_aborts_structural_node cfgAB "R" "r1" "olda" "05-14-2003" "A"
    ⟨[], ["ResourceID"]⟩ (by decide) (by decide)

/-! ## Association-list lookup helpers -/

theorem lookup_append_left (k u : String) (l l' : List (String × String))
    (h : List.lookup k l = some u) : List.lookup k (l ++ l') = some u := by
  induction l with
  | nil => simp [List.lookup] at h
  | cons p rest ih =>
    obtain ⟨a, b⟩ := p
    simp only [List.cons_append, List.lookup] at h ⊢
    cases hab : (k == a) with
    | true => rw [hab] at h; exact h
    | false => rw [hab] at h; exact ih h

theorem lookup_append_new (k v : String) (l : List (String × String))
    (h : List.lookup k l = none) : List.lookup k (l ++ [(k, v)]) = some v := by
  induction l with
  | nil => simp [List.lookup]
  | cons p rest ih =>
    obtain ⟨a, b⟩ := p
    simp only [List.cons_append, List.lookup] at h ⊢
    cases hab : (k == a) with
    | true => rw [hab] at h; cases h
    | false => rw [hab] at h; exact ih h

/-! ## Claim C10 -/

/-- Claim C10: `new_or_existing_uuid` returns the stored UUID when the
prefLabel's `value` is already a key of the store, otherwise returns the fresh
UUID and records it; existing bindings are never overwritten, and a second
call with the same `value` returns the same UUID as the first (idempotence on
the label value within one run). -/
theorem c10_new_or_existing_uuid_idempotent (fresh1 fresh2 : String)
    (s : List (String × String)) (pl : PrefLabel) :
    (∀ u, List.lookup pl.value s = some u →
      new_or_existing_uuid fresh1 s pl = (u, s)) ∧
    (List.lookup pl.value s = none →
      (new_or_existing_uuid fresh1 s pl).1 = fresh1 ∧
      List.lookup pl.value (new_or_existing_uuid fresh1 s pl).2 = some fresh1) ∧
    (∀ k u, List.lookup k s = some u →
      List.lookup k (new_or_existing_uuid fresh1 s pl).2 = some u) ∧
    (new_or_existing_uuid fresh2 (new_or_existing_uuid fresh1 s pl).2 pl).1 =
      (new_or_existing_uuid fresh1 s pl).1 := by
  refine ⟨?_, ?_, ?_, ?_⟩
  · intro u h
    simp only [new_or_existing_uuid, h]
  · intro h
    simp only [new_or_existing_uuid, h]
    exact ⟨trivial, lookup_append_new _ _ _ h⟩
  · intro k u h
    cases hlk : List.lookup pl.value s with
    | none =>
      simp only [new_or_existing_uuid, hlk]
      exact lookup_append_left _ _ _ _ h
    | some w =>
      simp only [new_or_existing_uuid, hlk]
      exact h
  · cases hlk : List.lookup pl.value s with
    | none =>
      simp only [new_or_existing_uuid, hlk,
        lookup_append_new pl.value fresh1 s hlk]
    | some w =>
      simp only [new_or_existing_uuid, hlk]

/-- Claim C10, witness: with the value `a` already stored, both calls return
the stored UUID `u1` and leave the store unchanged. -/
theorem c10_new_or_existing_uuid_idempotent_witness :
    new_or_existing_uuid "f1" [("a", "u1")] ⟨"a"⟩ = ("u1", [("a", "u1")]) :=
  (c10_new_or_existing_uuid_idempotent "f1" "f2" [("a", "u1")] ⟨"a"⟩).1 "u1"
    (by decide)

/-! ## Lemmas on firstOcc and the pair-level condensing view -/

theorem lookup_isSome_iff_mem_keys (k : String) (l : List (String × String)) :
    (List.lookup k l).isSome = true ↔ k ∈ l.map Prod.fst := by
  induction l with
  | nil => simp [List.lookup]
  | cons p rest ih =>
    obtain ⟨a, b⟩ := p
    by_cases hk : k = a
    · subst hk; simp [List.lookup]
    · simp only [List.lookup, beq_false_of_ne hk, List.map_cons, List.mem_cons]
      rw [ih]
      simp [hk]

theorem firstOcc_congr (ps : List (String × String)) :
    ∀ (s s' : List String), (∀ p ∈ ps, (p.1 ∈ s ↔ p.1 ∈ s')) →
      firstOcc s ps = firstOcc s' ps := by
  induction ps with
  | nil => intro s s' _; rfl
  | cons p rest ih =>
    intro s s' h
    obtain ⟨f, v⟩ := p
    have hf : f ∈ s ↔ f ∈ s' := h (f, v) (by simp)
    by_cases hfs : f ∈ s
    · have hfs' : f ∈ s' := hf.mp hfs
      simp only [firstOcc, if_pos hfs, if_pos hfs']
      rw [ih s s' (fun q hq => h q (List.mem_cons_of_mem _ hq))]
    · have hfs' : f ∉ s' := fun hx => hfs (hf.mpr hx)
      simp only [firstOcc, if_neg hfs, if_neg hfs']
      rw [ih (f :: s) (f :: s')
        (fun q hq => by
          simp only [List.mem_cons]
          rw [iff_iff_eq.mp (h q (List.mem_cons_of_mem _ hq))])]

theorem firstOcc_taken_subset (ps : List (String × String)) :
    ∀ (s : List String) (q : String × String),
      q ∈ (firstOcc s ps).1 → q ∈ ps := by
  induction ps with
  | nil => intro s q hq; simp [firstOcc] at hq
  | cons p rest ih =>
    intro s q hq
    obtain ⟨f, v⟩ := p
    by_cases hfs : f ∈ s
    · simp only [firstOcc, if_pos hfs] at hq
      exact List.mem_cons_of_mem _ (ih s q hq)
    · simp only [firstOcc, if_neg hfs, List.mem_cons] at hq
      rcases hq with hq | hq
      · simp [hq]
      · exact List.mem_cons_of_mem _ (ih (f :: s) q hq)

theorem firstOcc_left_subset (ps : List (String × String)) :
    ∀ (s : List String) (q : String × String),
      q ∈ (firstOcc s ps).2 → q ∈ ps := by
  induction ps with
  | nil => intro s q hq; simp [firstOcc] at hq
  | cons p rest ih =>
    intro s q hq
    obtain ⟨f, v⟩ := p
    by_cases hfs : f ∈ s
    · simp only [firstOcc, if_pos hfs, List.mem_cons] at hq
      rcases hq with hq | hq
      · simp [hq]
      · exact List.mem_cons_of_mem _ (ih s q hq)
    · simp only [firstOcc, if_neg hfs] at hq
      exact List.mem_cons_of_mem _ (ih (f :: s) q hq)

theorem firstOcc_left_length_le (ps : List (String × String)) :
    ∀ (s : List String), (firstOcc s ps).2.length ≤ ps.length := by
  induction ps with
  | nil => intro s; simp [firstOcc]
  | cons p rest ih =>
    intro s
    obtain ⟨f, v⟩ := p
    by_cases hfs : f ∈ s
    · simp only [firstOcc, if_pos hfs, List.length_cons]
      exact Nat.succ_le_succ (ih s)
    · simp only [firstOcc, if_neg hfs, List.length_cons]
      exact Nat.le_succ_of_le (ih (f :: s))

theorem firstOcc_perm (ps : List (String × String)) :
    ∀ (s : List String),
      List.Perm ((firstOcc s ps).1 ++ (firstOcc s ps).2) ps := by
  induction ps with
  | nil => intro s; simp [firstOcc]
  | cons p rest ih =>
    intro s
    obtain ⟨f, v⟩ := p
    by_cases hfs : f ∈ s
    · simp only [firstOcc, if_pos hfs]
      exact (List.perm_middle).trans (List.Perm.cons _ (ih s))
    · simp only [firstOcc, if_neg hfs, List.cons_append]
      exact List.Perm.cons _ (ih (f :: s))

theorem firstOcc_taken_keys (ps : List (String × String)) :
    ∀ (s : List String),
      ((firstOcc s ps).1.map Prod.fst).Nodup ∧
        ∀ q ∈ (firstOcc s ps).1, q.1 ∉ s := by
  induction ps with
  | nil => intro s; simp [firstOcc]
  | cons p rest ih =>
    intro s
    obtain ⟨f, v⟩ := p
    by_cases hfs : f ∈ s
    · simp only [firstOcc, if_pos hfs]
      exact ih s
    · obtain ⟨hnd, hns⟩ := ih (f :: s)
      simp only [firstOcc, if_neg hfs, List.map_cons, List.nodup_cons,
        List.mem_cons]
      refine ⟨⟨?_, hnd⟩, ?_⟩
      · intro hcon
        rcases List.mem_map.mp hcon with ⟨q, hq, hq1⟩
        exact hns q hq (by simp [hq1])
      · rintro q (rfl | hq)
        · exact hfs
        · intro hqs
          exact hns q hq (List.mem_cons_of_mem _ hqs)

theorem fieldCount_firstOcc_left_mem (ps : List (String × String)) :
    ∀ (s : List String) (f : String), f ∈ s →
      fieldCount (firstOcc s ps).2 f = fieldCount ps f := by
  induction ps with
  | nil => intro s f _; rfl
  | cons p rest ih =>
    intro s f hf
    obtain ⟨g, v⟩ := p
    by_cases hgs : g ∈ s
    · by_cases hgf : g = f
      · have := ih s f hf
        simp only [firstOcc, if_pos hgs]
        simp [fieldCount, List.filter_cons, hgf] at this ⊢
        omega
      · have := ih s f hf
        simp only [firstOcc, if_pos hgs]
        simp [fieldCount, List.filter_cons, hgf] at this ⊢
        exact this
    · have hgf : g ≠ f := fun hx => hgs (hx ▸ hf)
      simp only [firstOcc, if_neg hgs]
      have := ih (g :: s) f (List.mem_cons_of_mem _ hf)
      simp only [fieldCount, List.filter_cons, decide_eq_true_eq, hgf,
        ite_false] at this ⊢
      exact this

theorem fieldCount_firstOcc_left_not_mem (ps : List (String × String)) :
    ∀ (s : List String) (f : String), f ∉ s →
      fieldCount (firstOcc s ps).2 f = fieldCount ps f - 1 := by
  induction ps with
  | nil => intro s f _; rfl
  | cons p rest ih =>
    intro s f hf
    obtain ⟨g, v⟩ := p
    by_cases hgs : g ∈ s
    · have hgf : g ≠ f := fun hx => hf (hx ▸ hgs)
      simp only [firstOcc, if_pos hgs]
      have := ih s f hf
      simp only [fieldCount, List.filter_cons, decide_eq_true_eq, hgf,
        ite_false] at this ⊢
      exact this
    · simp only [firstOcc, if_neg hgs]
      by_cases hgf : g = f
      · have := fieldCount_firstOcc_left_mem rest (g :: s) g (by simp)
        simp [fieldCount, List.filter_cons, hgf] at this ⊢
        omega
      · have := ih (g :: s) f
          (by simp only [List.mem_cons]; rintro (rfl | hx)
              · exact hgf rfl
              · exact hf hx)
        simp only [fieldCount, List.filter_cons, decide_eq_true_eq, hgf,
          ite_false] at this ⊢
        exact this

theorem condensePairsFuel_congr :
    ∀ (n m : Nat) (ps : List (String × String)), ps.length ≤ n →
      ps.length ≤ m → condensePairsFuel n ps = condensePairsFuel m ps := by
  intro n
  induction n with
  | zero =>
    intro m ps hn _
    have : ps = [] := List.eq_nil_of_length_eq_zero (Nat.le_zero.mp hn)
    subst this
    cases m <;> rfl
  | succ n ih =>
    intro m ps hn hm
    cases ps with
    | nil => cases m <;> rfl
    | cons p rest =>
      cases m with
      | zero => simp at hm
      | succ m =>
        simp only [condensePairsFuel]
        rw [ih m _ ?_ ?_]
        · exact le_trans (firstOcc_left_length_le rest [p.1])
            (by simpa [List.length_cons, Nat.succ_le_succ_iff] using hn)
        · exact le_trans (firstOcc_left_length_le rest [p.1])
            (by simpa [List.length_cons, Nat.succ_le_succ_iff] using hm)

/-! ## Relating create_resource_rows to the pair-level view -/

theorem addItems_mkRow_present (nr : Row) (r f v : String)
    (hf : f ≠ "ResourceID") (hRID : "ResourceID" ∈ nr.map Prod.fst)
    (hmem : f ∈ nr.map Prod.fst) :
    addItems nr (mkRow r f v) = (nr, false) := by
  have h1 : (List.lookup "ResourceID" nr).isSome = true :=
    (lookup_isSome_iff_mem_keys _ _).mpr hRID
  have h2 : (List.lookup f nr).isSome = true :=
    (lookup_isSome_iff_mem_keys _ _).mpr hmem
  simp [addItems, mkRow, hf, h1, h2]

theorem addItems_mkRow_absent (nr : Row) (r f v : String)
    (hf : f ≠ "ResourceID") (hRID : "ResourceID" ∈ nr.map Prod.fst)
    (hmem : f ∉ nr.map Prod.fst) :
    addItems nr (mkRow r f v) = (nr ++ [(f, v)], true) := by
  have h1 : (List.lookup "ResourceID" nr).isSome = true :=
    (lookup_isSome_iff_mem_keys _ _).mpr hRID
  have h2 : ¬ (List.lookup f nr).isSome = true :=
    fun hx => hmem ((lookup_isSome_iff_mem_keys _ _).mp hx)
  simp [addItems, mkRow, hf, h1, h2]

theorem addItems_mkRow_empty (r f v : String) (hf : f ≠ "ResourceID") :
    addItems [] (mkRow r f v) = ([("ResourceID", r), (f, v)], true) := by
  simp [addItems, mkRow, hf, List.lookup, beq_false_of_ne hf]

theorem condensePass_mkRow (r : String) (ps : List (String × String)) :
    ∀ (nr : Row), (∀ p ∈ ps, p.1 ≠ "ResourceID") →
      "ResourceID" ∈ nr.map Prod.fst →
      condensePass (ps.map (fun p => mkRow r p.1 p.2)) nr =
        (nr ++ (firstOcc (nr.map Prod.fst) ps).1,
          ((firstOcc (nr.map Prod.fst) ps).2).map (fun p => mkRow r p.1 p.2)) := by
  induction ps with
  | nil => intro nr _ _; simp [condensePass, firstOcc]
  | cons p rest ih =>
    intro nr hps hRID
    obtain ⟨f, v⟩ := p
    have hf : f ≠ "ResourceID" := hps (f, v) (by simp)
    have hrest : ∀ q ∈ rest, q.1 ≠ "ResourceID" :=
      fun q hq => hps q (List.mem_cons_of_mem _ hq)
    by_cases hmem : f ∈ nr.map Prod.fst
    · simp only [List.map_cons, condensePass,
        addItems_mkRow_present nr r f v hf hRID hmem]
      rw [ih nr hrest hRID]
      simp [firstOcc, hmem]
    · simp only [List.map_cons, condensePass,
        addItems_mkRow_absent nr r f v hf hRID hmem]
      rw [ih (nr ++ [(f, v)]) hrest (by simp [hRID])]
      have hkeys : ((nr ++ [(f, v)]).map Prod.fst) = nr.map Prod.fst ++ [f] := by
        simp
      rw [hkeys, firstOcc_congr rest (nr.map Prod.fst ++ [f])
        (f :: nr.map Prod.fst) (fun q _ => by simp [or_comm])]
      simp [firstOcc, hmem]

theorem condensePass_mkRow_nonempty (r f v : String)
    (rest : List (String × String))
    (hps : ∀ p ∈ (f, v) :: rest, p.1 ≠ "ResourceID") :
    condensePass (mkRow r f v :: rest.map (fun p => mkRow r p.1 p.2)) [] =
      (("ResourceID", r) :: (f, v) :: (firstOcc [f] rest).1,
        ((firstOcc [f] rest).2).map (fun p => mkRow r p.1 p.2)) := by
  have hf : f ≠ "ResourceID" := hps (f, v) (by simp)
  have hrest : ∀ q ∈ rest, q.1 ≠ "ResourceID" :=
    fun q hq => hps q (List.mem_cons_of_mem _ hq)
  simp only [condensePass, addItems_mkRow_empty r f v hf]
  rw [condensePass_mkRow r rest [("ResourceID", r), (f, v)] hrest (by simp)]
  have hkeys : (([("ResourceID", r), (f, v)] : Row).map Prod.fst) =
      ["ResourceID", f] := by simp
  rw [hkeys, firstOcc_congr rest ["ResourceID", f] [f]
    (fun q hq => by simp [hrest q hq])]
  simp

theorem condenseLoop_mkRow (r : String) :
    ∀ (n : Nat) (ps : List (String × String)), ps.length ≤ n →
      (∀ p ∈ ps, p.1 ≠ "ResourceID") →
      condenseLoop n (ps.map (fun p => mkRow r p.1 p.2)) =
        (condensePairsFuel n ps).map
          (fun taken => ("ResourceID", r) :: taken) := by
  intro n
  induction n with
  | zero =>
    intro ps h _
    have : ps = [] := List.length_eq_zero.mp (Nat.le_zero.mp h)
    subst this; rfl
  | succ n ih =>
    intro ps hlen hps
    cases ps with
    | nil => rfl
    | cons p rest =>
      obtain ⟨f, v⟩ := p
      simp only [List.map_cons, condenseLoop,
        condensePass_mkRow_nonempty r f v rest hps, condensePairsFuel]
      rw [ih (firstOcc [f] rest).2
        (le_trans (firstOcc_left_length_le rest [f])
          (by simpa [Nat.succ_le_succ_iff] using hlen))
        (fun q hq => hps q
          (List.mem_cons_of_mem _ (firstOcc_left_subset rest [f] q hq)))]

theorem create_resource_rows_mkRow (r : String) (ps : List (String × String))
    (hps : ∀ p ∈ ps, p.1 ≠ "ResourceID") :
    create_resource_rows (ps.map (fun p => mkRow r p.1 p.2)) =
      (condensePairs ps).map (fun taken => ("ResourceID", r) :: taken) := by
  unfold create_resource_rows condensePairs
  rw [List.length_map]
  exact condenseLoop_mkRow r ps.length ps le_rfl hps

theorem condensePairsFuel_flatten_perm :
    ∀ (n : Nat) (ps : List (String × String)), ps.length ≤ n →
      List.Perm (condensePairsFuel n ps).flatten ps := by
  intro n
  induction n with
  | zero =>
    intro ps h
    have : ps = [] := List.length_eq_zero.mp (Nat.le_zero.mp h)
    subst this; simp [condensePairsFuel]
  | succ n ih =>
    intro ps hlen
    cases ps with
    | nil => simp [condensePairsFuel]
    | cons p rest =>
      obtain ⟨f, v⟩ := p
      simp only [condensePairsFuel, List.flatten_cons, List.cons_append]
      refine List.Perm.cons _ ?_
      have h1 := ih (firstOcc [f] rest).2
        (le_trans (firstOcc_left_length_le rest [f])
          (by simpa [Nat.succ_le_succ_iff] using hlen))
      exact ((h1.append_left _)).trans (firstOcc_perm rest [f])

theorem condensePairsFuel_rows :
    ∀ (n : Nat) (ps : List (String × String)), ps.length ≤ n →
      ∀ row ∈ condensePairsFuel n ps,
        (∀ q ∈ row, q ∈ ps) ∧ (row.map Prod.fst).Nodup := by
  intro n
  induction n with
  | zero =>
    intro ps h row hrow
    have : ps = [] := List.length_eq_zero.mp (Nat.le_zero.mp h)
    subst this; simp [condensePairsFuel] at hrow
  | succ n ih =>
    intro ps hlen row hrow
    cases ps with
    | nil => simp [condensePairsFuel] at hrow
    | cons p rest =>
      obtain ⟨f, v⟩ := p
      simp only [condensePairsFuel, List.mem_cons] at hrow
      rcases hrow with rfl | hrow
      · constructor
        · rintro q hq
          rcases List.mem_cons.mp hq with rfl | hq
          · simp
          · exact List.mem_cons_of_mem _ (firstOcc_taken_subset rest [f] q hq)
        · obtain ⟨hnd, hns⟩ := firstOcc_taken_keys rest [f]
          simp only [List.map_cons, List.nodup_cons]
          refine ⟨?_, hnd⟩
          intro hcon
          rcases List.mem_map.mp hcon with ⟨q, hq, hq1⟩
          exact hns q hq (by simp [hq1])
      · have h1 := ih (firstOcc [f] rest).2
          (le_trans (firstOcc_left_length_le rest [f])
            (by simpa [Nat.succ_le_succ_iff] using hlen))
          row hrow
        exact ⟨fun q hq => List.mem_cons_of_mem _
          (firstOcc_left_subset rest [f] q (h1.1 q hq)), h1.2⟩

/-! ## Maximum multiplicity lemmas -/

theorem le_foldr_max (l : List Nat) (a : Nat) (h : a ∈ l) :
    a ≤ l.foldr max 0 := by
  induction l with
  | nil => simp at h
  | cons b rest ih =>
    rcases List.mem_cons.mp h with rfl | h
    · exact le_max_left _ _
    · exact le_trans (ih h) (le_max_right _ _)

theorem foldr_max_le (l : List Nat) (b : Nat) (h : ∀ a ∈ l, a ≤ b) :
    l.foldr max 0 ≤ b := by
  induction l with
  | nil => simp
  | cons c rest ih =>
    simp only [List.foldr_cons]
    exact max_le (h c (by simp))
      (ih (fun a ha => h a (List.mem_cons_of_mem _ ha)))

theorem mem_le_maxMult (ps : List (String × String)) (p : String × String)
    (h : p ∈ ps) : fieldCount ps p.1 ≤ maxMult ps :=
  le_foldr_max _ _ (List.mem_map_of_mem _ h)

theorem maxMult_le (ps : List (String × String)) (b : Nat)
    (h : ∀ p ∈ ps, fieldCount ps p.1 ≤ b) : maxMult ps ≤ b :=
  foldr_max_le _ _ (fun a ha => by
    rcases List.mem_map.mp ha with ⟨p, hp, rfl⟩
    exact h p hp)

theorem fieldCount_pos_of_mem (ps : List (String × String))
    (p : String × String) (h : p ∈ ps) : 1 ≤ fieldCount ps p.1 :=
  List.length_pos_of_mem (List.mem_filter.mpr ⟨h, by simp⟩)

theorem fieldCount_pos_exists (ps : List (String × String)) (f : String)
    (h : 1 ≤ fieldCount ps f) : ∃ q ∈ ps, q.1 = f := by
  rcases List.exists_mem_of_length_pos h with ⟨q, hq⟩
  have := List.mem_filter.mp hq
  exact ⟨q, this.1, by simpa using this.2⟩

theorem condensePairsFuel_length :
    ∀ (n : Nat) (ps : List (String × String)), ps.length ≤ n →
      (condensePairsFuel n ps).length = maxMult ps := by
  intro n
  induction n with
  | zero =>
    intro ps h
    have : ps = [] := List.length_eq_zero.mp (Nat.le_zero.mp h)
    subst this; rfl
  | succ n ih =>
    intro ps hlen
    cases ps with
    | nil => rfl
    | cons p rest =>
      obtain ⟨f, v⟩ := p
      have hcount : ∀ g, fieldCount (firstOcc [f] rest).2 g =
          fieldCount ((f, v) :: rest) g - 1 := by
        intro g
        have h0 := fieldCount_firstOcc_left_not_mem ((f, v) :: rest) [] g
          (by simp)
        simpa [firstOcc] using h0
      have hsub : ∀ q ∈ (firstOcc [f] rest).2, q ∈ (f, v) :: rest :=
        fun q hq => List.mem_cons_of_mem _ (firstOcc_left_subset rest [f] q hq)
      simp only [condensePairsFuel, List.length_cons]
      rw [ih (firstOcc [f] rest).2
        (le_trans (firstOcc_left_length_le rest [f])
          (by simpa [Nat.succ_le_succ_iff] using hlen))]
      have hup : maxMult ((f, v) :: rest) ≤ 1 + maxMult (firstOcc [f] rest).2 := by
        refine maxMult_le _ _ (fun p' hp' => ?_)
        have h1 := fieldCount_pos_of_mem _ p' hp'
        have h2 := hcount p'.1
        by_cases hz : fieldCount (firstOcc [f] rest).2 p'.1 = 0
        · omega
        · rcases fieldCount_pos_exists (firstOcc [f] rest).2 p'.1 (by omega)
            with ⟨q, hq, hq1⟩
          have h3 := mem_le_maxMult (firstOcc [f] rest).2 q hq
          rw [hq1] at h3
          omega
      have hlow : maxMult (firstOcc [f] rest).2 ≤ maxMult ((f, v) :: rest) - 1 := by
        refine maxMult_le _ _ (fun q hq => ?_)
        have h2 := hcount q.1
        have h3 := mem_le_maxMult ((f, v) :: rest) q (hsub q hq)
        omega
      have hpos : 1 ≤ maxMult ((f, v) :: rest) :=
        le_trans (fieldCount_pos_of_mem _ (f, v) (by simp))
          (mem_le_maxMult _ _ (by simp))
      omega

/-! ## Claim C2 -/

/-- Claim C2: condensing the rows built from a resource's formatted
(field id, value) pairs yields a partition of the input — no field id occurs
twice within a row, and stripping the identifier column from the output rows
reconstructs exactly the input pairs (as a multiset). -/
theorem c2_create_resource_rows_partition (r : String)
    (ps : List (String × String)) (hps : ∀ p ∈ ps, p.1 ≠ "ResourceID") :
    (∀ row ∈ create_resource_rows (ps.map (fun p => mkRow r p.1 p.2)),
        (row.map Prod.fst).Nodup) ∧
      List.Perm
        (((create_resource_rows (ps.map (fun p => mkRow r p.1 p.2))).map
            (fun row => row.filter (fun kv => kv.1 != "ResourceID"))).flatten)
        ps := by
  rw [create_resource_rows_mkRow r ps hps]
  constructor
  · intro row hrow
    rcases List.mem_map.mp hrow with ⟨taken, htaken, rfl⟩
    obtain ⟨hsub, hnd⟩ :=
      condensePairsFuel_rows ps.length ps le_rfl taken htaken
    simp only [List.map_cons, List.nodup_cons]
    refine ⟨?_, hnd⟩
    intro hcon
    rcases List.mem_map.mp hcon with ⟨q, hq, hq1⟩
    exact hps q (hsub q hq) hq1
  · rw [List.map_map]
    have hmap : (condensePairs ps).map
        ((fun row => row.filter (fun kv => kv.1 != "ResourceID")) ∘
          (fun taken => ("ResourceID", r) :: taken)) = condensePairs ps := by
      refine List.map_congr_left ?_ |>.trans (List.map_id _)
      intro taken htaken
      obtain ⟨hsub, _⟩ :=
        condensePairsFuel_rows ps.length ps le_rfl taken htaken
      simp only [Function.comp_apply, List.filter_cons, bne_self_eq_false,
        Bool.false_eq_true, if_false, id]
      exact List.filter_eq_self.mpr (fun kv hkv =>
        bne_iff_ne.mpr (hps kv (hsub kv hkv)))
    rw [hmap]
    exact condensePairsFuel_flatten_perm ps.length ps le_rfl

/-- Claim C2, witness at a concrete input with a duplicated field id. -/
theorem c2_create_resource_rows_partition_witness :
    (∀ row ∈ create_resource_rows
        (([("A", "1"), ("A", "2"), ("B", "3")] :
            List (String × String)).map (fun p => mkRow "r1" p.1 p.2)),
        (row.map Prod.fst).Nodup) ∧
      List.Perm
        (((create_resource_rows
            (([("A", "1"), ("A", "2"), ("B", "3")] :
                List (String × String)).map (fun p => mkRow "r1" p.1 p.2))).map
            (fun row => row.filter (fun kv => kv.1 != "ResourceID"))).flatten)
        [("A", "1"), ("A", "2"), ("B", "3")] :=
  c2_create_resource_rows_partition "r1" [("A", "1"), ("A", "2"), ("B", "3")]
    (by decide)

/-! ## Claim C3 -/

/-- Claim C3: for a non-empty pair sequence, condensing emits exactly as many
rows as the maximum multiplicity of any single field id in the input — the
minimum possible under the no-duplicate-column constraint. -/
theorem c3_create_resource_rows_minimal (r : String)
    (ps : List (String × String)) (_hne : ps ≠ [])
    (hps : ∀ p ∈ ps, p.1 ≠ "ResourceID") :
    (create_resource_rows (ps.map (fun p => mkRow r p.1 p.2))).length =
      maxMult ps := by
  rw [create_resource_rows_mkRow r ps hps, List.length_map]
  exact condensePairsFuel_length ps.length ps le_rfl

/-- Claim C3, witness: three pairs with maximum multiplicity two condense to
exactly two rows. -/
theorem c3_create_resource_rows_minimal_witness :
    (create_resource_rows
        (([("A", "1"), ("A", "2"), ("B", "3")] :
            List (String × String)).map (fun p => mkRow "r1" p.1 p.2))).length =
      maxMult [("A", "1"), ("A", "2"), ("B", "3")] :=
  c3_create_resource_rows_minimal "r1" [("A", "1"), ("A", "2"), ("B", "3")]
    (by decide) (by decide)

/-! ## Processing a resource whose fields are all dropped -/

theorem process_children_all_dropped (cfg : Config) (rname ruuid : String) :
    ∀ (n : Nat) (children : List Child) (st : MigState), sizeOf children ≤ n →
      children.all (allDroppedB cfg rname) = true →
      process_children cfg rname ruuid children st = some st := by
  intro n
  induction n with
  | zero =>
    intro children st hsz _
    cases children with
    | nil => simp at hsz
    | cons c rest => cases c; simp at hsz
  | succ n ih =>
    intro children st hsz hall
    cases children with
    | nil => simp [process_children]
    | cons c rest =>
      obtain ⟨e, v, b, kids⟩ := c
      simp only [List.all_cons, Bool.and_eq_true] at hall
      have hlk : List.lookup e (cfg.graphdiffs rname) = none := by
        have := hall.1
        simp only [allDroppedB, Bool.and_eq_true] at this
        exact Option.isNone_iff_eq_none.mp this.1
      have hkids : kids.all (allDroppedB cfg rname) = true := by
        have := hall.1
        simp only [allDroppedB, Bool.and_eq_true] at this
        refine List.all_eq_true.mpr (fun c hc => ?_)
        have h2 := List.all_eq_true.mp this.2 ⟨c, hc⟩ (List.mem_attach _ _)
        simpa using h2
      have hres : get_v4_fieldname cfg rname e = some none := by
        unfold get_v4_fieldname; rw [hlk]
      have hszk : sizeOf kids ≤ n := by
        simp only [List.cons.sizeOf_spec, Child.mk.sizeOf_spec] at hsz; omega
      have hszr : sizeOf rest ≤ n := by
        simp only [List.cons.sizeOf_spec, Child.mk.sizeOf_spec] at hsz; omega
      simp only [process_children, Child.entitytypeid, Child.child_entities,
        hres]
      rw [ih kids st hszk hkids]
      exact ih rest st hszr hall.2

/-! ## Claim C5 -/

/-- Claim C5, counterexample: a resource whose only child is dropped (its
field id is absent from the rename table) leaves the per-resource row list
empty, and condensing an empty row list emits ZERO rows — not a single
identifier-only row as the claim states. -/
theorem c5_counterexample :
    process_children cfgAB "R" "r1" [Child.mk "gone" "x" "bt" []]
        ⟨[], ["ResourceID"]⟩ = some ⟨[], ["ResourceID"]⟩ ∧
      create_resource_rows ([] : List Row) = [] ∧
      (create_resource_rows ([] : List Row)).length ≠ 1 := by
  refine ⟨?_, rfl, by simp [create_resource_rows, condenseLoop]⟩
  have hres : get_v4_fieldname cfgAB "R" "gone" = some none := by decide
  simp [process_children, Child.entitytypeid, Child.child_entities, hres]

/-- Claim C5 (amended): a source resource all of whose child entities are
dropped by field resolution contributes no rows at all: processing leaves the
empty row list unchanged, and condensing emits zero rows for it (the resource
is simply absent from the output, rather than emitting one identifier-only
row). -/
theorem c5_zero_field_resource_emits_no_rows (cfg : Config)
    (rname ruuid : String) (children : List Child) (fns : List String)
    (hall : children.all (allDroppedB cfg rname) = true) :
    process_children cfg rname ruuid children ⟨[], fns⟩ = some ⟨[], fns⟩ ∧
      create_resource_rows (([] : List Row)) = [] :=
  ⟨process_children_all_dropped cfg rname ruuid (sizeOf children) children
      ⟨[], fns⟩ le_rfl hall, rfl⟩

/-- Claim C5 (amended), witness: a two-level tree of dropped entities. -/
theorem c5_zero_field_resource_emits_no_rows_witness :
    process_children cfgAB "R" "r1"
        [Child.mk "gone" "x" "bt" [Child.mk "gone2" "y" "" []]]
        ⟨[], ["ResourceID"]⟩ = some ⟨[], ["ResourceID"]⟩ ∧
      create_resource_rows (([] : List Row)) = [] :=
  c5_zero_field_resource_emits_no_rows cfgAB "R" "r1"
    [Child.mk "gone" "x" "bt" [Child.mk "gone2" "y" "" []]] ["ResourceID"]
    (by simp [allDroppedB, cfgAB, List.lookup])

/-! ## Header lemmas and Claim C6 -/

theorem pySetList_foldl_mem (l : List String) :
    ∀ (acc : List String) (x : String),
      x ∈ l.foldl (fun acc x => if x ∈ acc then acc else acc ++ [x]) acc ↔
        x ∈ acc ∨ x ∈ l := by
  induction l with
  | nil => intro acc x; simp
  | cons y rest ih =>
    intro acc x
    simp only [List.foldl_cons]
    by_cases hy : y ∈ acc
    · rw [if_pos hy, ih acc x]
      constructor
      · rintro (h | h)
        · exact Or.inl h
        · exact Or.inr (List.mem_cons_of_mem _ h)
      · rintro (h | h)
        · exact Or.inl h
        · rcases List.mem_cons.mp h with rfl | h
          · exact Or.inl hy
          · exact Or.inr h
    · rw [if_neg hy, ih (acc ++ [y]) x]
      simp only [List.mem_append, List.mem_singleton, List.mem_cons]
      tauto

theorem pySetList_mem (l : List String) (x : String) :
    x ∈ pySetList l ↔ x ∈ l := by
  unfold pySetList
  rw [pySetList_foldl_mem l [] x]
  simp

theorem pySetList_foldl_nodup (l : List String) :
    ∀ (acc : List String), acc.Nodup →
      (l.foldl (fun acc x => if x ∈ acc then acc else acc ++ [x]) acc).Nodup := by
  induction l with
  | nil => intro acc h; simpa using h
  | cons y rest ih =>
    intro acc hacc
    simp only [List.foldl_cons]
    by_cases hy : y ∈ acc
    · rw [if_pos hy]; exact ih acc hacc
    · rw [if_neg hy]
      refine ih (acc ++ [y]) ?_
      simp [List.nodup_append, hacc, hy]

theorem pySetList_nodup (l : List String) : (pySetList l).Nodup :=
  pySetList_foldl_nodup l [] List.nodup_nil

/-- Claim C6, counterexample: with declared mapping fields `[A, B]` and a
resource that only ever populates `A`, the computed CSV header is
`[ResourceID, A]` — the declared-but-unobserved field `B` is missing, so the
header is not the identifier followed by the model's declared field order. -/
theorem c6_counterexample :
    cfgAB.mappings "R" = ["A", "B"] ∧
      make_header ["ResourceID", "A"] = ["ResourceID", "A"] ∧
      "B" ∉ make_header ["ResourceID", "A"] ∧
      make_header ["ResourceID", "A"] ≠ "ResourceID" :: cfgAB.mappings "R" := by
  refine ⟨by decide, by decide, by decide, by decide⟩

/-- Claim C6 (amended): the CSV header's first column is the resource
identifier, and the remaining columns are exactly the de-duplicated observed
field names, in unspecified (set-iteration) order — not the model's declared
field order, and declared fields never observed in the data are absent. -/
theorem c6_header_identifier_first_observed_fields (observed : List String) :
    (make_header ("ResourceID" :: observed)).head? = some "ResourceID" ∧
      ∀ f, f ∈ make_header ("ResourceID" :: observed) ↔
        (f = "ResourceID" ∨ f ∈ observed) := by
  constructor
  · rfl
  · intro f
    unfold make_header
    by_cases hf : f = "ResourceID"
    · subst hf; simp
    · simp only [List.mem_cons, hf, false_or]
      rw [List.mem_erase_of_ne hf, pySetList_mem]
      simp [hf]

/-! ## Key containment through create_resource_rows -/

theorem addItems_foldl_mem (items : List (String × String)) :
    ∀ (acc : Row × Bool) (kv : String × String),
      kv ∈ (items.foldl
        (fun acc kv => if (List.lookup kv.1 acc.1).isSome then acc
          else (acc.1 ++ [kv], true)) acc).1 →
      kv ∈ acc.1 ∨ kv ∈ items := by
  induction items with
  | nil => intro acc kv h; exact Or.inl h
  | cons it rest ih =>
    intro acc kv h
    simp only [List.foldl_cons] at h
    rcases ih _ kv h with h1 | h1
    · by_cases hlk : (List.lookup it.1 acc.1).isSome = true
      · rw [if_pos hlk] at h1; exact Or.inl h1
      · rw [if_neg hlk] at h1
        rcases List.mem_append.mp h1 with h2 | h2
        · exact Or.inl h2
        · exact Or.inr (by simp [List.mem_singleton.mp h2])
    · exact Or.inr (List.mem_cons_of_mem _ h1)

theorem addItems_mem (nr items : Row) (kv : String × String)
    (h : kv ∈ (addItems nr items).1) : kv ∈ nr ∨ kv ∈ items :=
  addItems_foldl_mem items (nr, false) kv h

theorem condensePass_mem_newrow (rows : List Row) :
    ∀ (nr : Row) (kv : String × String),
      kv ∈ (condensePass rows nr).1 →
      kv ∈ nr ∨ ∃ r0 ∈ rows, kv ∈ r0 := by
  induction rows with
  | nil => intro nr kv h; exact Or.inl h
  | cons r rest ih =>
    intro nr kv h
    simp only [condensePass] at h
    have hmem : kv ∈ (condensePass rest (addItems nr r).1).1 := by
      by_cases hb : (addItems nr r).2 = true
      · simpa [hb] using h
      · simp only [Bool.not_eq_true] at hb
        simpa [hb] using h
    rcases ih (addItems nr r).1 kv hmem with h1 | ⟨r0, hr0, hkv⟩
    · rcases addItems_mem nr r kv h1 with h2 | h2
      · exact Or.inl h2
      · exact Or.inr ⟨r, by simp, h2⟩
    · exact Or.inr ⟨r0, List.mem_cons_of_mem _ hr0, hkv⟩

theorem condensePass_remaining_subset (rows : List Row) :
    ∀ (nr : Row) (r0 : Row), r0 ∈ (condensePass rows nr).2 → r0 ∈ rows := by
  induction rows with
  | nil => intro nr r0 h; simp [condensePass] at h
  | cons r rest ih =>
    intro nr r0 h
    simp only [condensePass] at h
    by_cases hb : (addItems nr r).2 = true
    · simp only [hb, if_true] at h
      exact List.mem_cons_of_mem _ (ih _ _ h)
    · simp only [Bool.not_eq_true] at hb
      simp only [hb, Bool.false_eq_true, if_false, List.mem_cons] at h
      rcases h with rfl | h
      · simp
      · exact List.mem_cons_of_mem _ (ih _ _ h)

theorem condenseLoop_keys_subset :
    ∀ (n : Nat) (rows : List Row) (row : Row) (kv : String × String),
      row ∈ condenseLoop n rows → kv ∈ row → ∃ r0 ∈ rows, kv ∈ r0 := by
  intro n
  induction n with
  | zero =>
    intro rows row kv hrow _
    cases rows <;> simp [condenseLoop] at hrow
  | succ n ih =>
    intro rows row kv hrow hkv
    cases rows with
    | nil => simp [condenseLoop] at hrow
    | cons r rest =>
      simp only [condenseLoop, List.mem_cons] at hrow
      rcases hrow with rfl | hrow
      · rcases condensePass_mem_newrow (r :: rest) [] kv hkv with h | h
        · simp at h
        · exact h
      · rcases ih _ row kv hrow hkv with ⟨r0, hr0, hkv0⟩
        exact ⟨r0, condensePass_remaining_subset (r :: rest) [] r0 hr0, hkv0⟩

theorem create_resource_rows_keys_subset (rows : List Row) (row : Row)
    (kv : String × String) (hrow : row ∈ create_resource_rows rows)
    (hkv : kv ∈ row) : ∃ r0 ∈ rows, kv ∈ r0 :=
  condenseLoop_keys_subset rows.length rows row kv hrow hkv

/-! ## Row-key invariant of process_children, and Claim C7 -/

theorem process_children_rows_prop (cfg : Config) (rname ruuid : String) :
    ∀ (n : Nat) (children : List Child) (st st' : MigState),
      sizeOf children ≤ n →
      process_children cfg rname ruuid children st = some st' →
      (∀ row ∈ st.rows, ∀ kv ∈ row,
        kv.1 = "ResourceID" ∨ kv.1 ∈ cfg.mappings rname) →
      ∀ row ∈ st'.rows, ∀ kv ∈ row,
        kv.1 = "ResourceID" ∨ kv.1 ∈ cfg.mappings rname := by
  intro n
  induction n with
  | zero =>
    intro children st st' hsz _ _
    cases children with
    | nil => simp at hsz
    | cons c rest => cases c; simp at hsz
  | succ n ih =>
    intro children st st' hsz hproc hst
    cases children with
    | nil =>
      simp only [process_children, Option.some.injEq] at hproc
      subst hproc; exact hst
    | cons c rest =>
      obtain ⟨e, v, b, kids⟩ := c
      have hszk : sizeOf kids ≤ n := by
        simp only [List.cons.sizeOf_spec, Child.mk.sizeOf_spec] at hsz; omega
      have hszr : sizeOf rest ≤ n := by
        simp only [List.cons.sizeOf_spec, Child.mk.sizeOf_spec] at hsz; omega
      simp only [process_children, Child.entitytypeid, Child.child_entities,
        Child.value, Child.businesstablename] at hproc
      cases hres : get_v4_fieldname cfg rname e with
      | none => simp only [hres] at hproc; cases hproc
      | some fOpt =>
        simp only [hres] at hproc
        cases hrec : process_children cfg rname ruuid kids st with
        | none => simp only [hrec] at hproc; cases hproc
        | some st1 =>
          simp only [hrec] at hproc
          have hst1 := ih kids st st1 hszk hrec hst
          cases fOpt with
          | none =>
            exact ih rest st1 st' hszr hproc hst1
          | some fname =>
            cases hfix : fix_datatype cfg rname fname v with
            | none => simp only [hfix] at hproc; cases hproc
            | some fixed =>
              simp only [hfix] at hproc
              have hfmem : fname ∈ cfg.mappings rname :=
                get_v4_fieldname_mem cfg rname e fname hres
              refine ih rest _ st' hszr hproc ?_
              by_cases hb : b ≠ ""
              · simp only [if_pos hb] at hproc ⊢
                intro row hrow kv hkv
                rcases List.mem_append.mp hrow with h1 | h1
                · exact hst1 row h1 kv hkv
                · have hrow' : row = mkRow ruuid fname fixed :=
                    List.mem_singleton.mp h1
                  subst hrow'
                  unfold mkRow at hkv
                  by_cases hfr : fname = "ResourceID"
                  · rw [if_pos hfr] at hkv
                    rcases List.mem_singleton.mp hkv with rfl
                    exact Or.inl rfl
                  · rw [if_neg hfr] at hkv
                    rcases List.mem_cons.mp hkv with rfl | hkv
                    · exact Or.inl rfl
                    · rcases List.mem_singleton.mp hkv with rfl
                      exact Or.inr hfmem
              · simp only [if_neg hb] at hproc ⊢
                exact hst1

/-- Claim C7: starting from an empty per-resource row list, every row emitted
by condensing the rows accumulated by `process_children` has all of its column
names among the target model's declared mapping field names plus the resource
identifier column. -/
theorem c7_row_columns_subset_declared (cfg : Config) (rname ruuid : String)
    (children : List Child) (fns : List String) (st' : MigState)
    (h : process_children cfg rname ruuid children ⟨[], fns⟩ = some st') :
    ∀ row ∈ create_resource_rows st'.rows, ∀ kv ∈ row,
      kv.1 = "ResourceID" ∨ kv.1 ∈ cfg.mappings rname := by
  intro row hrow kv hkv
  obtain ⟨r0, hr0, hkv0⟩ :=
    create_resource_rows_keys_subset st'.rows row kv hrow hkv
  exact process_children_rows_prop cfg rname ruuid (sizeOf children) children
    ⟨[], fns⟩ st' le_rfl h (by simp) r0 hr0 kv hkv0

/-- Concrete end-to-end evaluation of `process_children` on one resolvable
dated child, shared by the C6 counterexample context and the C7 witness. -/
theorem process_children_cfgAB_single :
    process_children cfgAB "R" "r1"
        [Child.mk "olda" "2003-05-14T00:00:00" "bt" []] ⟨[], ["ResourceID"]⟩ =
      some ⟨[[("ResourceID", "r1"), ("A", "2003-05-14")]],
        ["ResourceID", "A"]⟩ := by
  have h1 : get_v4_fieldname cfgAB "R" "olda" = some (some "A") := by decide
  have h2 : fix_datatype cfgAB "R" "A" "2003-05-14T00:00:00" =
      some "2003-05-14" := by decide
  simp [process_children, Child.entitytypeid, Child.value,
    Child.businesstablename, Child.child_entities, h1, h2, appendRow, mkRow]

/-- Claim C7, witness: in the single emitted row of the concrete run, the
column of the dated entry is the identifier or a declared field. -/
theorem c7_row_columns_subset_declared_witness :
    ("A", "2003-05-14").1 = "ResourceID" ∨
      ("A", "2003-05-14").1 ∈ cfgAB.mappings "R" :=
  c7_row_columns_subset_declared cfgAB "R" "r1"
    [Child.mk "olda" "2003-05-14T00:00:00" "bt" []] ["ResourceID"]
    ⟨[[("ResourceID", "r1"), ("A", "2003-05-14")]], ["ResourceID", "A"]⟩
    process_children_cfgAB_single
    [("ResourceID", "r1"), ("A", "2003-05-14")] (by decide)
    ("A", "2003-05-14") (by decide)

/-! ## Digit and parser evaluation lemmas for fix_date -/

theorem digitChar_spec (k : Nat) (hk : k ≤ 9) :
    isDigitC (Nat.digitChar k) = true ∧ digitVal (Nat.digitChar k) = k := by
  interval_cases k <;> exact ⟨by decide, by decide⟩

theorem takeDigits_pad2 (n : Nat) (hn : n ≤ 99) (c : Char)
    (hc : isDigitC c = false) (l : List Char) :
    takeDigits (pad2 n ++ c :: l) = ([n / 10, n % 10], c :: l) := by
  have h1 := digitChar_spec (n / 10) (by omega)
  have h2 := digitChar_spec (n % 10) (by omega)
  simp [pad2, takeDigits, h1.1, h1.2, h2.1, h2.2, hc]

theorem takeDigits_pad2_end (n : Nat) (hn : n ≤ 99) :
    takeDigits (pad2 n) = ([n / 10, n % 10], []) := by
  have h1 := digitChar_spec (n / 10) (by omega)
  have h2 := digitChar_spec (n % 10) (by omega)
  simp [pad2, takeDigits, h1.1, h1.2, h2.1, h2.2]

theorem takeDigits_pad4 (n : Nat) (hn : n ≤ 9999) (c : Char)
    (hc : isDigitC c = false) (l : List Char) :
    takeDigits (pad4 n ++ c :: l) =
      ([n / 1000, n / 100 % 10, n / 10 % 10, n % 10], c :: l) := by
  have h1 := digitChar_spec (n / 1000) (by omega)
  have h2 := digitChar_spec (n / 100 % 10) (by omega)
  have h3 := digitChar_spec (n / 10 % 10) (by omega)
  have h4 := digitChar_spec (n % 10) (by omega)
  simp [pad4, takeDigits, h1.1, h1.2, h2.1, h2.2, h3.1, h3.2, h4.1, h4.2, hc]

theorem digitsVal_pad2 (n : Nat) (_hn : n ≤ 99) :
    digitsVal [n / 10, n % 10] = n := by
  simp only [digitsVal, List.foldl]
  omega

theorem digitsVal_pad4 (n : Nat) (hn : n ≤ 9999) :
    digitsVal [n / 1000, n / 100 % 10, n / 10 % 10, n % 10] = n := by
  simp only [digitsVal, List.foldl]
  omega

theorem daysInMonth_le_31 (y m : Nat) : daysInMonth y m ≤ 31 := by
  unfold daysInMonth
  split_ifs <;> omega

theorem strptime_mkTimestamp (y m d h mi s : Nat) (hy : y ≤ 9999)
    (hm1 : 1 ≤ m) (hm2 : m ≤ 12) (hd1 : 1 ≤ d) (hd2 : d ≤ 31) (hh : h ≤ 23)
    (hmi : mi ≤ 59) (hs : s ≤ 59) :
    strptime_ymdhms (mkTimestamp y m d h mi s).data = some (y, m, d) := by
  have hmOk : monthOk [m / 10, m % 10] = true := by
    simp [monthOk, digitsVal]
    omega
  have hdOk : dayOk [d / 10, d % 10] = true := by
    simp [dayOk, digitsVal]
    omega
  have hhOk : hourOk [h / 10, h % 10] = true := by
    simp [hourOk, digitsVal]
    omega
  have hmiOk : minSecOk [mi / 10, mi % 10] = true := by
    simp [minSecOk, digitsVal]
    omega
  have hsOk : minSecOk [s / 10, s % 10] = true := by
    simp [minSecOk, digitsVal]
    omega
  show strptime_ymdhms
      (pad4 y ++ '-' :: pad2 m ++ '-' :: pad2 d ++
        'T' :: pad2 h ++ ':' :: pad2 mi ++ ':' :: pad2 s) = some (y, m, d)
  simp only [strptime_ymdhms, List.cons_append, List.append_assoc]
  rw [takeDigits_pad4 y hy '-' (by decide)]
  simp only [List.length_cons, List.length_nil]
  rw [takeDigits_pad2 m (by omega) '-' (by decide)]
  simp only [hmOk]
  rw [takeDigits_pad2 d (by omega) 'T' (by decide)]
  simp only [hdOk]
  rw [takeDigits_pad2 h (by omega) ':' (by decide)]
  simp only [hhOk]
  rw [takeDigits_pad2 mi (by omega) ':' (by decide)]
  simp only [hmiOk]
  rw [takeDigits_pad2_end s (by omega)]
  simp only [hsOk]
  rw [digitsVal_pad4 y hy, digitsVal_pad2 m (by omega),
    digitsVal_pad2 d (by omega)]
  simp

theorem mkTimestamp_length (y m d h mi s : Nat) :
    (mkTimestamp y m d h mi s).length = 19 := by
  simp [mkTimestamp, String.length, pad4, pad2]

theorem fix_date_mkTimestamp (y m d h mi s : Nat) (hy1 : 1 ≤ y)
    (hy : y ≤ 9999) (hm1 : 1 ≤ m) (hm2 : m ≤ 12) (hd1 : 1 ≤ d)
    (hd2 : d ≤ daysInMonth y m) (hh : h ≤ 23) (hmi : mi ≤ 59) (hs : s ≤ 59) :
    fix_date (mkTimestamp y m d h mi s) = some (isoDate y m d) := by
  have hne : mkTimestamp y m d h mi s ≠ "" := by
    intro heq
    have hlen := mkTimestamp_length y m d h mi s
    rw [heq] at hlen
    simp at hlen
  have hd31 : d ≤ 31 := le_trans hd2 (daysInMonth_le_31 y m)
  simp only [fix_date, if_neg hne,
    strptime_mkTimestamp y m d h mi s hy hm1 hm2 hd1 hd31 hh hmi hs]
  rw [if_pos ⟨hy1, hy, hm1, hm2, hd1, hd2⟩]

/-! ## Claim C4 -/

/-- Claim C4, counterexample: the input `2003-5-14T00:00:00` is non-empty and
NOT of the conforming form `YYYY-MM-DDTHH:MM:SS` (its month is not
zero-padded, so the string is only 18 characters long), yet `fix_date` does
not raise — `strptime` accepts one-digit components — and returns
`2003-05-14`.  Hence raising is not equivalent to non-conformance. -/
theorem c4_counterexample :
    fix_date "2003-5-14T00:00:00" = some "2003-05-14" ∧
      "2003-5-14T00:00:00" ≠ "" ∧ ¬ IsoConforming "2003-5-14T00:00:00" := by
  refine ⟨by decide, by decide, ?_⟩
  rintro ⟨y, m, d, h, mi, s, -, -, -, -, -, -, -, -, -, heq⟩
  have hlen := congrArg String.length heq
  rw [mkTimestamp_length y m d h mi s] at hlen
  exact absurd hlen (by decide)

/-- Claim C4 (amended): `fix_date` maps the empty string to itself, maps every
strictly conforming `YYYY-MM-DDTHH:MM:SS` timestamp to its date portion
`YYYY-MM-DD` (the first ten characters), and raises ONLY on non-empty,
non-conforming input; but the converse fails — some non-conforming inputs
(e.g. with unpadded components) are accepted rather than raising, so raising
is merely sufficient for non-conformance, not equivalent to it. -/
theorem c4_fix_date_amended :
    fix_date "" = some "" ∧
      (∀ y m d h mi s : Nat,
        1 ≤ y → y ≤ 9999 → 1 ≤ m → m ≤ 12 → 1 ≤ d → d ≤ daysInMonth y m →
        h ≤ 23 → mi ≤ 59 → s ≤ 59 →
        fix_date (mkTimestamp y m d h mi s) = some (isoDate y m d) ∧
          (isoDate y m d).data = (mkTimestamp y m d h mi s).data.take 10) ∧
      (∀ str, fix_date str = none → str ≠ "" ∧ ¬ IsoConforming str) := by
  refine ⟨rfl, ?_, ?_⟩
  · intro y m d h mi s hy1 hy hm1 hm2 hd1 hd2 hh hmi hs
    refine ⟨fix_date_mkTimestamp y m d h mi s hy1 hy hm1 hm2 hd1 hd2 hh hmi hs,
      ?_⟩
    rfl
  · intro str hnone
    constructor
    · rintro rfl
      simp [fix_date] at hnone
    · rintro ⟨y, m, d, h, mi, s, hy1, hy, hm1, hm2, hd1, hd2, hh, hmi, hs, rfl⟩
      rw [fix_date_mkTimestamp y m d h mi s hy1 hy hm1 hm2 hd1 hd2 hh hmi hs]
        at hnone
      cases hnone

/-- Claim C4 (amended), witness at the spec's own example date. -/
theorem c4_fix_date_amended_witness :
    fix_date (mkTimestamp 2003 5 14 0 0 0) = some (isoDate 2003 5 14) ∧
      (isoDate 2003 5 14).data = (mkTimestamp 2003 5 14 0 0 0).data.take 10 :=
  c4_fix_date_amended.2.1 2003 5 14 0 0 0 (by decide) (by decide) (by decide)
    (by decide) (by decide) (by decide) (by decide) (by decide) (by decide)

end ArchesMigration
